import Mathlib

/-!
Verification of the TTC cli-server chat core.

Shallow embedding of the Go sources:
* `internal/models` — `Message`, `MessageBuffer` (bounded, TTL-stamped store);
* `internal/services/chat_service.go` — `ChatService` (publish / read / wait);
* `internal/services/auth_service.go` — `AuthService` (shared secret, liveness,
  rate limiting);
* `internal/utils` — `IsValidColor`, `GenerateID`.

Times are modelled as natural numbers (nanoseconds); Go maps are modelled as
association lists whose key lists play the role of the map's key set; the
package-global identifier counter of `utils` is threaded through the
`ChatService` state; a waiter's one-slot channel is modelled by a `Bool`
recording whether a wake-up signal is pending in its buffer.
-/

namespace TTC

/-- `models.Message`. `expireAt` is written by `MessageBuffer.Add`. -/
structure Message where
  id : String
  username : String
  content : String
  color : String
  timestamp : Nat
  expireAt : Nat
deriving DecidableEq

/-- `models.MessageBuffer`: the ordered bounded store (without its lock). -/
structure MessageBuffer where
  messages : List Message
  maxSize : Nat
  ttl : Nat
deriving DecidableEq

/-- `models.NewMessageBuffer` (the background cleanup goroutine is a separate
step, `MessageBuffer.cleanupStep`). -/
def NewMessageBuffer (maxSize ttl : Nat) : MessageBuffer :=
  { messages := [], maxSize := maxSize, ttl := ttl }

/-- The expiry stamp `msg.ExpireAt = time.Now().Add(mb.ttl)` that `Add`
performs through the shared pointer before appending. -/
def MessageBuffer.stamp (mb : MessageBuffer) (now : Nat) (msg : Message) : Message :=
  { msg with expireAt := now + mb.ttl }

/-- `(*MessageBuffer).Add`: stamp the expiry, append, and if the new length
exceeds `maxSize` drop the single oldest entry (`mb.messages = mb.messages[1:]`). -/
def MessageBuffer.Add (mb : MessageBuffer) (now : Nat) (msg : Message) : MessageBuffer :=
  let msgs := mb.messages ++ [mb.stamp now msg]
  { mb with messages := if mb.maxSize < msgs.length then msgs.tail else msgs }

/-- `(*MessageBuffer).getLastMessages`: the suffix of at most `limit` most
recent messages, oldest-first. -/
def MessageBuffer.getLastMessages (mb : MessageBuffer) (limit : Nat) : List Message :=
  if mb.messages.length = 0 then []
  else if mb.messages.length ≤ limit then mb.messages
  else mb.messages.drop (mb.messages.length - limit)

/-- The linear scan inside `(*MessageBuffer).GetAfter`: index of the first
message whose `ID` equals `afterID`, if any. -/
def findMsgIdx (afterID : String) : List Message → Option Nat
  | [] => none
  | m :: rest =>
      if m.id = afterID then some 0
      else (findMsgIdx afterID rest).map (· + 1)

/-- `(*MessageBuffer).GetAfter`: empty cursor reads the last `limit` messages;
a non-empty cursor returns everything strictly after the first match
(unbounded by `limit`), or the empty list when the cursor is unknown. -/
def MessageBuffer.GetAfter (mb : MessageBuffer) (afterID : String) (limit : Nat) :
    List Message :=
  if afterID = "" then mb.getLastMessages limit
  else
    match findMsgIdx afterID mb.messages with
    | none => []
    | some i => mb.messages.drop (i + 1)

/-- One tick of `(*MessageBuffer).cleanupLoop`: keep exactly the messages whose
expiry is still in the future (`msg.ExpireAt.After(now)`). -/
def MessageBuffer.cleanupStep (mb : MessageBuffer) (now : Nat) : MessageBuffer :=
  { mb with messages := mb.messages.filter (fun msg => decide (now < msg.expireAt)) }

/-- `(*MessageBuffer).Len`. -/
def MessageBuffer.Len (mb : MessageBuffer) : Nat :=
  mb.messages.length

/-- `utils.validColors`: the palette map (all stored values are `true`;
note that the empty string is itself a key of the map). -/
def validColors : List (String × Bool) :=
  [("[red]", true), ("[green]", true), ("[yellow]", true), ("[blue]", true),
   ("[magenta]", true), ("[cyan]", true), ("[white]", true), ("[black]", true),
   ("", true)]

/-- `utils.IsValidColor`: Go map read with the zero value `false` for a
missing key. -/
def IsValidColor (color : String) : Bool :=
  (validColors.lookup color).getD false

/-- `utils.GenerateID`: atomically increment the package-global `uint64`
counter (wrapping at `2 ^ 64`) and render `"msg_<unixNano>_<counter>"`.
Returns the identifier together with the new counter value. -/
def GenerateID (nowNanos counter : Nat) : String × Nat :=
  let newCounter := (counter + 1) % 2 ^ 64
  ("msg_" ++ Nat.repr nowNanos ++ "_" ++ Nat.repr newCounter, newCounter)

/-- `services.ChatService` (without its lock): the waiter map sends each
registered client identifier to the state of its one-slot channel buffer
(`true` iff a wake-up signal is pending). -/
structure ChatService where
  buffer : MessageBuffer
  waiters : List (String × Bool)
  maxWaiters : Nat
  msgCounter : Int
  idCounter : Nat
deriving DecidableEq

/-- `services.NewChatService`. -/
def NewChatService (buffer : MessageBuffer) : ChatService :=
  { buffer := buffer, waiters := [], maxWaiters := 1000, msgCounter := 0, idCounter := 0 }

/-- `(*ChatService).notifyWaiters`: best-effort non-blocking send on every
registered waiter channel; an already-full one-slot buffer stays full, an
empty one becomes full, so every buffer ends up holding a signal. -/
def notifyWaiters (ws : List (String × Bool)) : List (String × Bool) :=
  ws.map (fun w => (w.1, true))

/-- A Go map assignment `m[k] = v` on the association-list model: replace the
entry if the key is present, append otherwise. -/
def mapSet {α : Type} (l : List (String × α)) (k : String) (v : α) :
    List (String × α) :=
  if l.any (fun p => p.1 = k) then l.map (fun p => if p.1 = k then (k, v) else p)
  else l ++ [(k, v)]

/-- The map write `s.waiters[clientID] = waiter` with a freshly made empty
one-slot channel. -/
def setWaiter (ws : List (String × Bool)) (clientID : String) : List (String × Bool) :=
  mapSet ws clientID false

/-- `(*ChatService).SendMessage`. Returns the new service state and either the
created message or the validation error. The returned message carries the
expiry stamp because `Add` writes it through the shared pointer. -/
def ChatService.SendMessage (s : ChatService) (now : Nat)
    (username content color clientID : String) : ChatService × Except String Message :=
  if username = "" ∨ content = "" then
    (s, .error "username and content cannot be empty")
  else
    let color := if color ≠ "" ∧ IsValidColor color = false then "[white]" else color
    let s1 : ChatService := { s with msgCounter := s.msgCounter + 1 }
    let gen := GenerateID now s1.idCounter
    let msg : Message :=
      { id := gen.1, username := username, content := content, color := color,
        timestamp := now, expireAt := 0 }
    let s2 : ChatService :=
      { s1 with idCounter := gen.2, buffer := s1.buffer.Add now msg,
                waiters := notifyWaiters s1.waiters }
    (s2, .ok (s1.buffer.stamp now msg))

/-- `(*ChatService).GetMessages`: a plain read with the fixed limit 50; the
Go function always returns a `nil` error. -/
def ChatService.GetMessages (s : ChatService) (afterID : String) :
    Except String (List Message) :=
  .ok (s.buffer.GetAfter afterID 50)

/-- Outcome of the non-suspending part of `(*ChatService).WaitForMessages`. -/
inductive WaitOutcome where
  | immediate (msgs : List Message)
  | registered
  | busy
deriving DecidableEq

/-- The decision portion of `(*ChatService).WaitForMessages`, up to the point
where the call either returns data, fails with "server is busy", or suspends
having registered its waiter (the suspension itself is concurrency and is not
part of this state function). -/
def ChatService.waitCheck (s : ChatService) (clientID afterID : String) :
    WaitOutcome × ChatService :=
  let messages := s.buffer.GetAfter afterID 50
  if 0 < messages.length then (.immediate messages, s)
  else if s.maxWaiters ≤ s.waiters.length then (.busy, s)
  else (.registered, { s with waiters := setWaiter s.waiters clientID })

/-- `services.ClientInfo`. -/
structure ClientInfo where
  id : String
  firstSeen : Nat
  lastSeen : Nat
  messageCount : Int
deriving DecidableEq

/-- Modelled from the spec: the token-bucket state of the external library
`golang.org/x/time/rate` (not part of this repository). Only the seeding
parameters and the fact that `Allow` touches no map are used by the claims;
the continuous time-based refill is not modelled. -/
structure RateLimiter where
  limit : Nat
  burst : Nat
  tokens : Nat
deriving DecidableEq

/-- Modelled from the spec: `rate.NewLimiter(limit, burst)` starts with a
full bucket. -/
def NewLimiter (limit burst : Nat) : RateLimiter :=
  { limit := limit, burst := burst, tokens := burst }

/-- Modelled from the spec: `(*rate.Limiter).Allow` spends one token if one
is available. -/
def RateLimiter.Allow (l : RateLimiter) : Bool × RateLimiter :=
  if 0 < l.tokens then (true, { l with tokens := l.tokens - 1 }) else (false, l)

/-- `services.AuthService` (without its lock). -/
structure AuthService where
  accessKey : String
  clients : List (String × ClientInfo)
  rateLimiters : List (String × RateLimiter)
  rateLimit : Nat
  rateBurst : Nat
deriving DecidableEq

/-- `services.NewAuthService`. -/
def NewAuthService (accessKey : String) : AuthService :=
  { accessKey := accessKey, clients := [], rateLimiters := [], rateLimit := 10, rateBurst := 20 }

/-- In-place update of a Go map entry, as an association-list rewrite. -/
def updateEntry {α : Type} (l : List (String × α)) (k : String) (v : α) :
    List (String × α) :=
  l.map (fun p => if p.1 = k then (k, v) else p)

/-- `(*AuthService).ValidateAccess`. -/
def AuthService.ValidateAccess (s : AuthService) (now : Nat) (key clientID : String) :
    Bool × AuthService :=
  if key ≠ s.accessKey then (false, s)
  else if clientID = "" then (false, s)
  else
    match s.clients.lookup clientID with
    | some client =>
        let touched : ClientInfo :=
          { client with lastSeen := now, messageCount := client.messageCount + 1 }
        (true, { s with clients := updateEntry s.clients clientID touched })
    | none =>
        (true, { s with
          clients := mapSet s.clients clientID
            { id := clientID, firstSeen := now, lastSeen := now, messageCount := 1 },
          rateLimiters := mapSet s.rateLimiters clientID
            (NewLimiter s.rateLimit s.rateBurst) })

/-- `(*AuthService).CheckRateLimit`: a caller with no limiter entry passes;
otherwise the limiter's `Allow` decides (its internal state update happens in
place, through the map's pointer). -/
def AuthService.CheckRateLimit (s : AuthService) (clientID : String) :
    Bool × AuthService :=
  match s.rateLimiters.lookup clientID with
  | none => (true, s)
  | some limiter =>
      let r := limiter.Allow
      (r.1, { s with rateLimiters := updateEntry s.rateLimiters clientID r.2 })

/-- The staleness test `now.Sub(client.LastSeen) > maxAge` of the liveness
sweep (with truncated subtraction, as `lastSeen ≤ now` on every stored record). -/
def staleAt (now maxAge : Nat) (c : ClientInfo) : Bool :=
  decide (maxAge < now - c.lastSeen)

/-- One tick of the goroutine started by `(*AuthService).CleanupOldClients`:
delete every stale client record and the rate limiter stored under the same
identifier (limiters without a client record are not visited). -/
def AuthService.cleanupStep (s : AuthService) (now maxAge : Nat) : AuthService :=
  { s with
    clients := s.clients.filter (fun p => ! staleAt now maxAge p.2),
    rateLimiters := s.rateLimiters.filter (fun p =>
      match s.clients.lookup p.1 with
      | some c => ! staleAt now maxAge c
      | none => true) }

/-- `(*AuthService).GetClientCount`. -/
def AuthService.GetClientCount (s : AuthService) : Nat :=
  s.clients.length

/-- The operations that touch the Access Controller's two maps. -/
inductive AuthOp where
  | validate (now : Nat) (key clientID : String)
  | checkRate (clientID : String)
  | cleanup (now maxAge : Nat)

/-- Apply one Access Controller operation to the state. -/
def AuthService.applyOp (s : AuthService) : AuthOp → AuthService
  | .validate now key cid => (s.ValidateAccess now key cid).2
  | .checkRate cid => (s.CheckRateLimit cid).2
  | .cleanup now maxAge => s.cleanupStep now maxAge

/-- Apply a whole history of Access Controller operations. -/
def AuthService.applyOps (s : AuthService) (ops : List AuthOp) : AuthService :=
  ops.foldl AuthService.applyOp s

/-- A whole history of `Append` calls against the store, each tagged with its
wall-clock instant. -/
def MessageBuffer.addAll (mb : MessageBuffer) (entries : List (Nat × Message)) :
    MessageBuffer :=
  entries.foldl (fun b e => b.Add e.1 e.2) mb

/-- Repeated consecutive `CheckRateLimit` calls by one caller, collecting the
verdicts. -/
def AuthService.checkRateN (s : AuthService) (clientID : String) :
    Nat → List Bool × AuthService
  | 0 => ([], s)
  | n + 1 =>
      let r := s.CheckRateLimit clientID
      let rest := r.2.checkRateN clientID n
      (r.1 :: rest.1, rest.2)

/-- The key set (as a list) of an association-list map. -/
def keysOf {α : Type} (l : List (String × α)) : List String :=
  l.map Prod.fst

/-- The joint key-set and key-uniqueness invariant of the two maps. -/
def AuthInv (s : AuthService) : Prop :=
  keysOf s.clients = keysOf s.rateLimiters ∧ (keysOf s.clients).Nodup

/-- The decimal digit characters of a natural number, most significant first
(the functional core of `Nat.toDigits 10`, used to reason about `Nat.repr`). -/
def decDigits (n : Nat) : List Char :=
  if h : n < 10 then [Nat.digitChar n]
  else decDigits (n / 10) ++ [Nat.digitChar (n % 10)]
decreasing_by exact Nat.div_lt_self (by omega) (by decide)

/-- The identifiers produced by a run of `GenerateID` calls at the given
timestamps, threading the package-global counter. -/
def genHistory : List Nat → Nat → List String
  | [], _ => []
  | t :: rest, ctr =>
      let r := GenerateID t ctr
      r.1 :: genHistory rest r.2

/-- Concrete message used by the witnesses. -/
def sampleMsg (i : String) : Message :=
  { id := i, username := "u", content := "c", color := "", timestamp := 0, expireAt := 0 }

/-- Concrete store used by the witnesses. -/
def sampleBuffer : MessageBuffer :=
  { messages := [sampleMsg "a", sampleMsg "b", sampleMsg "c"], maxSize := 10, ttl := 5 }

theorem getLastMessages_eq_drop (mb : MessageBuffer) (limit : Nat) :
    mb.getLastMessages limit = mb.messages.drop (mb.messages.length - limit) := by
  unfold MessageBuffer.getLastMessages
  by_cases h0 : mb.messages.length = 0
  · simp [h0, List.eq_nil_of_length_eq_zero h0]
  · by_cases hle : mb.messages.length ≤ limit
    · simp [h0, hle, Nat.sub_eq_zero_of_le hle]
    · simp [h0, hle]

theorem findMsgIdx_eq_none {afterID : String} {msgs : List Message}
    (h : ∀ m ∈ msgs, m.id ≠ afterID) : findMsgIdx afterID msgs = none := by
  induction msgs with
  | nil => rfl
  | cons m rest ih =>
      simp only [findMsgIdx]
      rw [if_neg (h m (List.mem_cons_self m rest)),
        ih (fun x hx => h x (List.mem_cons_of_mem m hx))]
      rfl

theorem findMsgIdx_first {afterID : String} {l1 l2 : List Message} {m : Message}
    (h1 : ∀ x ∈ l1, x.id ≠ afterID) (hm : m.id = afterID) :
    findMsgIdx afterID (l1 ++ m :: l2) = some l1.length := by
  induction l1 with
  | nil => simp [findMsgIdx, hm]
  | cons x rest ih =>
      have hx : ¬ x.id = afterID := h1 x (List.mem_cons_self x rest)
      have ih2 := ih (fun y hy => h1 y (List.mem_cons_of_mem x hy))
      simp [findMsgIdx, hx, ih2]

/-- C1: `ReadSince(cursorID, limit)` (the store's `GetAfter`): with an empty
cursor it returns at most `limit` messages, namely the suffix of most recent
ones (all of them when fewer than `limit` exist), oldest-first; with a
non-empty cursor matching a stored message (the first occurrence of that
identifier) it returns every stored message strictly after it, oldest-first,
with no bound from `limit`. -/
theorem readSince_cursor_contract (mb : MessageBuffer) (limit : Nat) (afterID : String) :
    (mb.GetAfter "" limit).length ≤ limit ∧
    mb.GetAfter "" limit = mb.messages.drop (mb.messages.length - limit) ∧
    (∀ l1 m l2, afterID ≠ "" → mb.messages = l1 ++ m :: l2 → m.id = afterID →
      (∀ x ∈ l1, x.id ≠ afterID) → mb.GetAfter afterID limit = l2) := by
  have hempty : mb.GetAfter "" limit = mb.messages.drop (mb.messages.length - limit) := by
    simpa [MessageBuffer.GetAfter] using getLastMessages_eq_drop mb limit
  refine ⟨?_, hempty, ?_⟩
  · rw [hempty, List.length_drop]; omega
  · intro l1 m l2 hne hsplit hm h1
    unfold MessageBuffer.GetAfter
    rw [if_neg hne, hsplit, findMsgIdx_first h1 hm]
    have hassoc : l1 ++ m :: l2 = (l1 ++ [m]) ++ l2 := by simp
    rw [hassoc]
    have hdrop := List.drop_left (l1 ++ [m]) l2
    simpa using hdrop

/-- Witness for C1 at a concrete store and cursor. -/
theorem readSince_cursor_contract_witness :
    sampleBuffer.GetAfter "a" 1 = [sampleMsg "b", sampleMsg "c"] := by
  have h := readSince_cursor_contract sampleBuffer 1 "a"
  exact h.2.2 [] (sampleMsg "a") [sampleMsg "b", sampleMsg "c"] (by decide) rfl rfl
    (by simp)

theorem addAll_cons (mb : MessageBuffer) (e : Nat × Message) (rest : List (Nat × Message)) :
    mb.addAll (e :: rest) = (mb.Add e.1 e.2).addAll rest := rfl

theorem addAll_append_single (mb : MessageBuffer) (es : List (Nat × Message))
    (e : Nat × Message) : mb.addAll (es ++ [e]) = (mb.addAll es).Add e.1 e.2 := by
  simp [MessageBuffer.addAll, List.foldl_append]

theorem addAll_maxSize (mb : MessageBuffer) (es : List (Nat × Message)) :
    (mb.addAll es).maxSize = mb.maxSize := by
  induction es generalizing mb with
  | nil => rfl
  | cons e rest ih => rw [addAll_cons]; exact ih (mb.Add e.1 e.2)

theorem addAll_ttl (mb : MessageBuffer) (es : List (Nat × Message)) :
    (mb.addAll es).ttl = mb.ttl := by
  induction es generalizing mb with
  | nil => rfl
  | cons e rest ih => rw [addAll_cons]; exact ih (mb.Add e.1 e.2)

theorem Add_messages (mb : MessageBuffer) (now : Nat) (msg : Message) :
    (mb.Add now msg).messages =
      if mb.maxSize < (mb.messages ++ [mb.stamp now msg]).length then
        (mb.messages ++ [mb.stamp now msg]).tail
      else mb.messages ++ [mb.stamp now msg] := rfl

theorem addAll_empty_closed_form (C ttlv : Nat) (hC : 1 ≤ C)
    (entries : List (Nat × Message)) :
    (MessageBuffer.addAll { messages := [], maxSize := C, ttl := ttlv } entries).messages =
      (entries.map (fun e => { e.2 with expireAt := e.1 + ttlv : Message })).drop
        (entries.length - C) := by
  induction entries using List.reverseRecOn with
  | nil => simp [MessageBuffer.addAll]
  | append_singleton es e ih =>
      have hmax : (MessageBuffer.addAll { messages := [], maxSize := C, ttl := ttlv }
          es).maxSize = C := addAll_maxSize _ es
      have httl : (MessageBuffer.addAll { messages := [], maxSize := C, ttl := ttlv }
          es).ttl = ttlv := addAll_ttl _ es
      have hstamp : (MessageBuffer.addAll { messages := [], maxSize := C, ttl := ttlv }
          es).stamp e.1 e.2 = { e.2 with expireAt := e.1 + ttlv } := by
        simp [MessageBuffer.stamp, httl]
      rw [addAll_append_single, Add_messages, hmax, hstamp, ih]
      simp only [List.map_append, List.map_cons, List.map_nil, List.length_append,
        List.length_cons, List.length_nil, List.length_drop, List.length_map,
        Nat.zero_add]
      by_cases hlt : es.length < C
      · rw [if_neg (by omega)]
        have h1 : es.length - C = 0 := by omega
        have h2 : es.length + 1 - C = 0 := by omega
        rw [h1, h2, List.drop_zero, List.drop_zero]
      · rw [if_pos (by omega)]
        have hlenC : (List.drop (es.length - C)
            (es.map (fun e => { e.2 with expireAt := e.1 + ttlv : Message }))).length = C := by
          rw [List.length_drop, List.length_map]; omega
        have hne : List.drop (es.length - C)
            (es.map (fun e => { e.2 with expireAt := e.1 + ttlv : Message })) ≠ [] := by
          intro h; rw [h] at hlenC; simp at hlenC; omega
        rw [List.tail_append_of_ne_nil hne, List.tail_drop,
          List.drop_append_of_le_length (by rw [List.length_map]; omega)]
        have hidx : es.length + 1 - C = es.length - C + 1 := by omega
        rw [hidx]

/-- C2: starting from the empty store with capacity `C ≥ 1`, any sequence of
`Append` calls leaves exactly the `C` most recently appended messages (each
carrying its expiry stamp), oldest-first; in particular the length never
exceeds `C`, and an `Append` hitting the bound evicts exactly the single
oldest entry. -/
theorem append_capacity_contract (C ttlv : Nat) (mb : MessageBuffer)
    (hC : 1 ≤ C) (hmb : mb = { messages := [], maxSize := C, ttl := ttlv })
    (entries : List (Nat × Message)) :
    (mb.addAll entries).messages =
      (entries.map (fun e => { e.2 with expireAt := e.1 + ttlv : Message })).drop
        (entries.length - C) ∧
    (mb.addAll entries).messages.length ≤ C ∧
    (∀ (b : MessageBuffer) (now : Nat) (msg : Message), 1 ≤ b.maxSize →
      b.messages.length = b.maxSize →
      (b.Add now msg).messages = b.messages.tail ++ [b.stamp now msg]) := by
  subst hmb
  refine ⟨addAll_empty_closed_form C ttlv hC entries, ?_, ?_⟩
  · rw [addAll_empty_closed_form C ttlv hC entries, List.length_drop, List.length_map]
    omega
  · intro b now msg hpos hlen
    have hne : b.messages ≠ [] := by
      intro hnil; rw [hnil] at hlen; simp at hlen; omega
    simp only [MessageBuffer.Add]
    rw [if_pos (by rw [List.length_append]; simp [hlen]),
      List.tail_append_of_ne_nil hne]

/-- Witness for C2: capacity 2, three appends retain the last two messages
with their expiry stamps. -/
theorem append_capacity_contract_witness :
    ((NewMessageBuffer 2 7).addAll
        [(0, sampleMsg "a"), (1, sampleMsg "b"), (2, sampleMsg "c")]).messages =
      [{ sampleMsg "b" with expireAt := 8 }, { sampleMsg "c" with expireAt := 9 }] := by
  have h := append_capacity_contract 2 7 (NewMessageBuffer 2 7) (by decide) rfl
    [(0, sampleMsg "a"), (1, sampleMsg "b"), (2, sampleMsg "c")]
  exact h.1.trans (by decide)

/-- C7: a non-empty cursor that matches no stored message yields the empty
sequence, and the read path never reports an error (`GetMessages` always
succeeds). -/
theorem readSince_unknown_cursor_empty (mb : MessageBuffer) (afterID : String)
    (limit : Nat) (hne : afterID ≠ "") (hmiss : ∀ m ∈ mb.messages, m.id ≠ afterID) :
    mb.GetAfter afterID limit = [] ∧
    (∀ s : ChatService, ∃ msgs, s.GetMessages afterID = Except.ok msgs) := by
  constructor
  · unfold MessageBuffer.GetAfter
    rw [if_neg hne, findMsgIdx_eq_none hmiss]
  · intro s; exact ⟨_, rfl⟩

/-- Witness for C7 at a concrete store and an unknown cursor. -/
theorem readSince_unknown_cursor_empty_witness :
    sampleBuffer.GetAfter "zz" 50 = [] :=
  (readSince_unknown_cursor_empty sampleBuffer "zz" 50 (by decide) (by decide)).1

/-- Counterexample to C3: a `Send` with the empty string as the supplied
color creates a message whose color tag is the empty string, not the neutral
default `"[white]"` (the guard `color != ""` short-circuits the palette
check, so the empty color is preserved). -/
theorem send_empty_color_counterexample :
    ((NewChatService (NewMessageBuffer 1000 60)).SendMessage 5 "alice" "hi" "" "c1").2 =
      Except.ok { id := "msg_5_1", username := "alice", content := "hi", color := "",
                  timestamp := 5, expireAt := 65 } ∧ ("" : String) ≠ "[white]" :=
  ⟨rfl, by decide⟩

/-- C3 (amended): for a `Send` with non-empty username and content, the
created message's color tag equals the supplied color whenever that color
passes palette validation (validation accepts the empty string, which is
therefore preserved as empty — the request layer substitutes the default
before calling), and equals the neutral default `"[white]"` exactly when the
supplied color is non-empty and fails palette validation. -/
theorem send_color_normalization (s : ChatService) (now : Nat)
    (username content color clientID : String)
    (hu : username ≠ "") (hc : content ≠ "") :
    (IsValidColor color = true →
      (s.SendMessage now username content color clientID).2.map Message.color =
        Except.ok color) ∧
    (IsValidColor color = false →
      (s.SendMessage now username content color clientID).2.map Message.color =
        Except.ok "[white]") := by
  have hcond : ¬ (username = "" ∨ content = "") := by
    rintro (h | h)
    · exact hu h
    · exact hc h
  constructor
  · intro hv
    have hnot : ¬ (color ≠ "" ∧ IsValidColor color = false) := by
      rintro ⟨-, h2⟩
      rw [hv] at h2
      cases h2
    simp [ChatService.SendMessage, hcond, MessageBuffer.stamp, hnot, Except.map]
  · intro hv
    have hcol : color ≠ "" := by
      intro h
      rw [h] at hv
      exact absurd hv (by decide)
    simp [ChatService.SendMessage, hcond, MessageBuffer.stamp, hv, hcol, Except.map]

/-- Witness for the amended C3: an off-palette color is normalized to the
neutral default. -/
theorem send_color_normalization_witness :
    ((NewChatService (NewMessageBuffer 1000 60)).SendMessage 5 "alice" "hi" "[pink]"
        "c1").2.map Message.color = Except.ok "[white]" := by
  have h := send_color_normalization (NewChatService (NewMessageBuffer 1000 60)) 5
    "alice" "hi" "[pink]" "c1" (by decide) (by decide)
  exact h.2 (by decide)

/-- C5: `Send` returns the invalid-input error exactly when the username or
the content is empty, and on that error the whole service state is unchanged:
no message is appended to the store, no identifier or counter is consumed,
and no waiter is notified. -/
theorem send_invalid_input_contract (s : ChatService) (now : Nat)
    (username content color clientID : String) :
    (((s.SendMessage now username content color clientID).2 =
        Except.error "username and content cannot be empty") ↔
      (username = "" ∨ content = "")) ∧
    ((username = "" ∨ content = "") →
      (s.SendMessage now username content color clientID).1 = s) := by
  by_cases h : username = "" ∨ content = ""
  · refine ⟨⟨fun _ => h, fun _ => ?_⟩, fun _ => ?_⟩ <;>
      simp [ChatService.SendMessage, h]
  · refine ⟨⟨fun herr => ?_, fun hh => absurd hh h⟩, fun hh => absurd hh h⟩
    simp only [ChatService.SendMessage, if_neg h] at herr
    cases herr

/-- Witness for C5: an empty username is rejected and the state is untouched. -/
theorem send_invalid_input_contract_witness :
    ((NewChatService (NewMessageBuffer 1000 60)).SendMessage 5 "" "hi" "" "c1").1 =
      NewChatService (NewMessageBuffer 1000 60) := by
  have h := send_invalid_input_contract (NewChatService (NewMessageBuffer 1000 60)) 5
    "" "hi" "" "c1"
  exact h.2 (Or.inl rfl)

theorem lookup_append_singleton_ne {α : Type} (l : List (String × α)) (k q : String)
    (v : α) (hq : q ≠ k) : (l ++ [(k, v)]).lookup q = l.lookup q := by
  induction l with
  | nil => simp [List.lookup, beq_eq_false_iff_ne.mpr hq]
  | cons w rest ih =>
      obtain ⟨wk, wv⟩ := w
      by_cases hkw : (q == wk) = true
      · simp [List.lookup, hkw]
      · simp only [Bool.not_eq_true] at hkw
        simp [List.lookup, hkw, ih]

theorem lookup_append_singleton_self {α : Type} (l : List (String × α)) (k : String)
    (v : α) (h : l.any (fun p => p.1 = k) = false) :
    (l ++ [(k, v)]).lookup k = some v := by
  induction l with
  | nil => simp [List.lookup]
  | cons w rest ih =>
      obtain ⟨wk, wv⟩ := w
      rw [List.any_cons] at h
      simp only [Bool.or_eq_false_iff, decide_eq_false_iff_not] at h
      have hne : (k == wk) = false :=
        beq_eq_false_iff_ne.mpr (fun hh => h.1 hh.symm)
      simp [List.lookup, hne, ih h.2]

theorem lookup_replace_self {α : Type} (l : List (String × α)) (k : String) (v : α)
    (h : l.any (fun p => p.1 = k) = true) :
    (l.map (fun p => if p.1 = k then (k, v) else p)).lookup k = some v := by
  induction l with
  | nil => simp at h
  | cons w rest ih =>
      obtain ⟨wk, wv⟩ := w
      simp only [List.map_cons]
      by_cases hw : wk = k
      · rw [if_pos hw]
        simp [List.lookup]
      · rw [if_neg hw]
        have hrest : rest.any (fun p => p.1 = k) = true := by
          simpa [hw] using h
        have hne : (k == wk) = false :=
          beq_eq_false_iff_ne.mpr (fun hh => hw hh.symm)
        simp [List.lookup, hne, ih hrest]

theorem lookup_replace_other {α : Type} (l : List (String × α)) (k q : String) (v : α)
    (hq : q ≠ k) :
    (l.map (fun p => if p.1 = k then (k, v) else p)).lookup q = l.lookup q := by
  induction l with
  | nil => rfl
  | cons w rest ih =>
      obtain ⟨wk, wv⟩ := w
      simp only [List.map_cons]
      by_cases hw : wk = k
      · subst hw
        rw [if_pos rfl]
        have hne : (q == wk) = false := beq_eq_false_iff_ne.mpr hq
        simp [List.lookup, hne, ih]
      · rw [if_neg hw]
        by_cases hkw : (q == wk) = true
        · simp [List.lookup, hkw]
        · simp only [Bool.not_eq_true] at hkw
          simp [List.lookup, hkw, ih]

theorem any_key_of_lookup_some {α : Type} {l : List (String × α)} {k : String} {c : α}
    (h : l.lookup k = some c) : l.any (fun p => p.1 = k) = true := by
  induction l with
  | nil => cases h
  | cons w rest ih =>
      obtain ⟨wk, wv⟩ := w
      by_cases hkw : (k == wk) = true
      · simp [beq_iff_eq.mp hkw]
      · simp only [Bool.not_eq_true] at hkw
        simp only [List.lookup, hkw] at h
        simp [ih h]

theorem any_key_of_lookup_none {α : Type} {l : List (String × α)} {k : String}
    (h : l.lookup k = none) : l.any (fun p => p.1 = k) = false := by
  induction l with
  | nil => rfl
  | cons w rest ih =>
      obtain ⟨wk, wv⟩ := w
      by_cases hkw : (k == wk) = true
      · simp only [List.lookup, hkw] at h
        cases h
      · simp only [Bool.not_eq_true] at hkw
        simp only [List.lookup, hkw] at h
        have hne : ¬ wk = k := fun hh => by
          rw [hh] at hkw
          simp at hkw
        simp [List.any_cons, hne, ih h]

theorem mapSet_lookup_self {α : Type} (l : List (String × α)) (k : String) (v : α) :
    (mapSet l k v).lookup k = some v := by
  unfold mapSet
  by_cases h : l.any (fun p => p.1 = k) = true
  · rw [if_pos h]
    exact lookup_replace_self l k v h
  · simp only [Bool.not_eq_true] at h
    rw [if_neg (by simp [h])]
    exact lookup_append_singleton_self l k v h

theorem mapSet_lookup_other {α : Type} (l : List (String × α)) (k q : String) (v : α)
    (hq : q ≠ k) : (mapSet l k v).lookup q = l.lookup q := by
  unfold mapSet
  by_cases h : l.any (fun p => p.1 = k) = true
  · rw [if_pos h]
    exact lookup_replace_other l k q v hq
  · simp only [Bool.not_eq_true] at h
    rw [if_neg (by simp [h])]
    exact lookup_append_singleton_ne l k q v hq

theorem mapSet_length_le {α : Type} (l : List (String × α)) (k : String) (v : α) :
    (mapSet l k v).length ≤ l.length + 1 := by
  unfold mapSet
  by_cases h : l.any (fun p => p.1 = k) = true
  · rw [if_pos h, List.length_map]
    exact Nat.le_succ _
  · simp only [Bool.not_eq_true] at h
    rw [if_neg (by simp [h]), List.length_append]
    simp

theorem setWaiter_lookup_self (ws : List (String × Bool)) (cid : String) :
    (setWaiter ws cid).lookup cid = some false :=
  mapSet_lookup_self ws cid false

theorem setWaiter_lookup_other (ws : List (String × Bool)) (cid k : String)
    (hk : k ≠ cid) : (setWaiter ws cid).lookup k = ws.lookup k :=
  mapSet_lookup_other ws cid k false hk

theorem setWaiter_length_le (ws : List (String × Bool)) (cid : String) :
    (setWaiter ws cid).length ≤ ws.length + 1 :=
  mapSet_length_le ws cid false

/-- C6: when `WaitForNext` finds nothing on its initial non-blocking read:
at or above the configured waiter bound it fails busy and creates no
registration (the registry is unchanged); below the bound it registers
exactly one handle — an empty one-slot channel for this caller, all other
registrations untouched — and the registry size stays within the bound. -/
theorem wait_busy_backpressure (s : ChatService) (clientID afterID : String)
    (hempty : s.buffer.GetAfter afterID 50 = []) :
    (s.maxWaiters ≤ s.waiters.length →
      s.waitCheck clientID afterID = (WaitOutcome.busy, s)) ∧
    (s.waiters.length < s.maxWaiters →
      (s.waitCheck clientID afterID).1 = WaitOutcome.registered ∧
      (s.waitCheck clientID afterID).2.waiters.lookup clientID = some false ∧
      (∀ k, k ≠ clientID →
        (s.waitCheck clientID afterID).2.waiters.lookup k = s.waiters.lookup k) ∧
      (s.waitCheck clientID afterID).2.waiters.length ≤ s.maxWaiters) := by
  constructor
  · intro hfull
    simp [ChatService.waitCheck, hempty, hfull]
  · intro hroom
    have hnotfull : ¬ s.maxWaiters ≤ s.waiters.length := by omega
    refine ⟨?_, ?_, ?_, ?_⟩
    · simp [ChatService.waitCheck, hempty, hnotfull]
    · simp [ChatService.waitCheck, hempty, hnotfull, setWaiter_lookup_self]
    · intro k hkey
      simp [ChatService.waitCheck, hempty, hnotfull,
        setWaiter_lookup_other s.waiters clientID k hkey]
    · have hle := setWaiter_length_le s.waiters clientID
      simp only [ChatService.waitCheck, hempty]
      simp [hnotfull]
      omega

/-- Witness for C6: an empty store and an empty registry below the bound;
the call registers one empty handle for the caller. -/
theorem wait_busy_backpressure_witness :
    ((NewChatService (NewMessageBuffer 1000 60)).waitCheck "c1" "").2.waiters.lookup "c1" =
      some false := by
  have h := wait_busy_backpressure (NewChatService (NewMessageBuffer 1000 60)) "c1" ""
    (by decide)
  exact (h.2 (by decide)).2.1

/-- C8: `Authenticate` returns false exactly when the secret differs from the
configured value or the caller id is empty, leaving both maps unchanged;
otherwise it returns true and either refreshes the known caller's record
(last-seen set to now, request count incremented, limiters untouched) or
creates a record with count 1 together with a fresh limiter seeded with the
configured rate and burst, touching no other caller's entries. -/
theorem authenticate_contract (s : AuthService) (now : Nat) (key clientID : String) :
    ((s.ValidateAccess now key clientID).1 = false ↔
      (key ≠ s.accessKey ∨ clientID = "")) ∧
    ((key ≠ s.accessKey ∨ clientID = "") → (s.ValidateAccess now key clientID).2 = s) ∧
    (key = s.accessKey → clientID ≠ "" →
      (s.ValidateAccess now key clientID).1 = true ∧
      (∀ c, s.clients.lookup clientID = some c →
        (s.ValidateAccess now key clientID).2.clients.lookup clientID =
          some { c with lastSeen := now, messageCount := c.messageCount + 1 } ∧
        (s.ValidateAccess now key clientID).2.rateLimiters = s.rateLimiters ∧
        (∀ q, q ≠ clientID →
          (s.ValidateAccess now key clientID).2.clients.lookup q = s.clients.lookup q)) ∧
      (s.clients.lookup clientID = none →
        (s.ValidateAccess now key clientID).2.clients.lookup clientID =
          some { id := clientID, firstSeen := now, lastSeen := now, messageCount := 1 } ∧
        (s.ValidateAccess now key clientID).2.rateLimiters.lookup clientID =
          some (NewLimiter s.rateLimit s.rateBurst) ∧
        (∀ q, q ≠ clientID →
          (s.ValidateAccess now key clientID).2.clients.lookup q = s.clients.lookup q ∧
          (s.ValidateAccess now key clientID).2.rateLimiters.lookup q =
            s.rateLimiters.lookup q))) := by
  by_cases hkey : key = s.accessKey
  · subst hkey
    by_cases hcid : clientID = ""
    · refine ⟨?_, fun _ => ?_, fun _ hc => absurd hcid hc⟩
      · simp [AuthService.ValidateAccess, hcid]
      · simp [AuthService.ValidateAccess, hcid]
    · rcases hl : s.clients.lookup clientID with _ | c
      · have hstep : s.ValidateAccess now s.accessKey clientID =
            (true, { s with
              clients := mapSet s.clients clientID
                { id := clientID, firstSeen := now, lastSeen := now, messageCount := 1 },
              rateLimiters := mapSet s.rateLimiters clientID
                (NewLimiter s.rateLimit s.rateBurst) }) := by
          simp [AuthService.ValidateAccess, hcid, hl]
        refine ⟨?_, ?_, fun _ _ => ⟨?_, ?_, ?_⟩⟩
        · rw [hstep]
          simp [hcid]
        · rintro (hfail | hfail)
          · exact absurd rfl hfail
          · exact absurd hfail hcid
        · rw [hstep]
        · intro c hc
          cases hc
        · intro _
          refine ⟨?_, ?_, fun q hq => ⟨?_, ?_⟩⟩
          · rw [hstep]
            exact mapSet_lookup_self s.clients clientID _
          · rw [hstep]
            exact mapSet_lookup_self s.rateLimiters clientID _
          · rw [hstep]
            exact mapSet_lookup_other s.clients clientID q _ hq
          · rw [hstep]
            exact mapSet_lookup_other s.rateLimiters clientID q _ hq
      · have hstep : s.ValidateAccess now s.accessKey clientID =
            (true,
              { s with
                clients := updateEntry s.clients clientID
                  { c with lastSeen := now, messageCount := c.messageCount + 1 } }) := by
          simp [AuthService.ValidateAccess, hcid, hl]
        refine ⟨?_, ?_, fun _ _ => ⟨?_, ?_, ?_⟩⟩
        · rw [hstep]
          simp [hcid]
        · rintro (hfail | hfail)
          · exact absurd rfl hfail
          · exact absurd hfail hcid
        · rw [hstep]
        · intro c2 hc2
          injection hc2 with hc2
          subst hc2
          refine ⟨?_, ?_, fun q hq => ?_⟩
          · rw [hstep]
            exact lookup_replace_self s.clients clientID _ (any_key_of_lookup_some hl)
          · rw [hstep]
          · rw [hstep]
            exact lookup_replace_other s.clients clientID q _ hq
        · intro hnone
          cases hnone
  · refine ⟨?_, fun _ => ?_, fun hk _ => absurd hk hkey⟩
    · simp [AuthService.ValidateAccess, hkey]
    · simp [AuthService.ValidateAccess, hkey]

/-- Witness for C8: a fresh controller authenticates an unknown caller and
seeds its limiter with the configured rate and burst. -/
theorem authenticate_contract_witness :
    ((NewAuthService "k").ValidateAccess 3 "k" "c1").2.rateLimiters.lookup "c1" =
      some (NewLimiter 10 20) := by
  have h := authenticate_contract (NewAuthService "k") 3 "k" "c1"
  exact ((h.2.2 rfl (by decide)).2.2 rfl).2.1

/-- C9: a caller with no rate-limiter state is allowed by default: any number
of consecutive `CheckRate` calls all return true and leave the whole
controller state (both maps) unchanged. -/
theorem checkRate_unknown_caller_allowed (s : AuthService) (clientID : String) (n : Nat)
    (h : s.rateLimiters.lookup clientID = none) :
    s.checkRateN clientID n = (List.replicate n true, s) := by
  induction n with
  | zero => rfl
  | succ m ih =>
      have hstep : s.CheckRateLimit clientID = (true, s) := by
        simp [AuthService.CheckRateLimit, h]
      simp [AuthService.checkRateN, hstep, ih, List.replicate_succ]

/-- Witness for C9: three consecutive checks for an unknown caller. -/
theorem checkRate_unknown_caller_allowed_witness :
    (NewAuthService "k").checkRateN "nobody" 3 = ([true, true, true], NewAuthService "k") := by
  have h := checkRate_unknown_caller_allowed (NewAuthService "k") "nobody" 3 rfl
  simpa using h

theorem keysOf_map_fst {α : Type} (f : String × α → String × α)
    (hf : ∀ p, (f p).1 = p.1) (l : List (String × α)) :
    keysOf (l.map f) = keysOf l := by
  induction l with
  | nil => rfl
  | cons p rest ih =>
      simp only [keysOf, List.map_cons] at ih ⊢
      rw [hf p, ih]

theorem keysOf_updateEntry {α : Type} (l : List (String × α)) (k : String) (v : α) :
    keysOf (updateEntry l k v) = keysOf l := by
  unfold updateEntry
  refine keysOf_map_fst _ (fun p => ?_) l
  by_cases hp : p.1 = k
  · rw [if_pos hp]
    exact hp.symm
  · rw [if_neg hp]

theorem any_key_iff_mem {α : Type} (l : List (String × α)) (k : String) :
    l.any (fun p => p.1 = k) = true ↔ k ∈ keysOf l := by
  simp [List.any_eq_true, keysOf, List.mem_map]

theorem keysOf_mapSet_present {α : Type} (l : List (String × α)) (k : String) (v : α)
    (h : l.any (fun p => p.1 = k) = true) : keysOf (mapSet l k v) = keysOf l := by
  unfold mapSet
  rw [if_pos h]
  refine keysOf_map_fst _ (fun p => ?_) l
  by_cases hp : p.1 = k
  · rw [if_pos hp]
    exact hp.symm
  · rw [if_neg hp]

theorem keysOf_mapSet_absent {α : Type} (l : List (String × α)) (k : String) (v : α)
    (h : l.any (fun p => p.1 = k) = false) :
    keysOf (mapSet l k v) = keysOf l ++ [k] := by
  unfold mapSet
  rw [if_neg (by simp [h])]
  simp [keysOf]

theorem lookup_of_nodup_mem {α : Type} :
    ∀ l : List (String × α), (keysOf l).Nodup → ∀ p ∈ l, l.lookup p.1 = some p.2 := by
  intro l
  induction l with
  | nil => intro _ p hp; cases hp
  | cons w rest ih =>
      obtain ⟨wk, wv⟩ := w
      intro hnd p hp
      have hnd2 := List.nodup_cons.mp (show (wk :: keysOf rest).Nodup from hnd)
      rcases List.mem_cons.mp hp with heq | hp2
      · subst heq
        simp [List.lookup]
      · have hmem : p.1 ∈ keysOf rest := List.mem_map_of_mem Prod.fst hp2
        have hpk : ¬ p.1 = wk := by
          intro he
          rw [he] at hmem
          exact hnd2.1 hmem
        have hne : (p.1 == wk) = false := beq_eq_false_iff_ne.mpr hpk
        simp only [List.lookup, hne]
        exact ih hnd2.2 p hp2

theorem validate_preserves_inv (s : AuthService) (now : Nat) (key cid : String)
    (h : AuthInv s) : AuthInv (s.ValidateAccess now key cid).2 := by
  obtain ⟨hkeys, hnd⟩ := h
  by_cases hkey : key = s.accessKey
  · subst hkey
    by_cases hcid : cid = ""
    · simpa [AuthService.ValidateAccess, hcid, AuthInv] using ⟨hkeys, hnd⟩
    · rcases hl : s.clients.lookup cid with _ | c
      · have hstep : s.ValidateAccess now s.accessKey cid =
            (true, { s with
              clients := mapSet s.clients cid
                { id := cid, firstSeen := now, lastSeen := now, messageCount := 1 },
              rateLimiters := mapSet s.rateLimiters cid
                (NewLimiter s.rateLimit s.rateBurst) }) := by
          simp [AuthService.ValidateAccess, hcid, hl]
        rw [hstep]
        have hanyC := any_key_of_lookup_none hl
        have hmemC : cid ∉ keysOf s.clients := by
          intro hmem
          rw [(any_key_iff_mem s.clients cid).mpr hmem] at hanyC
          cases hanyC
        have hanyR : s.rateLimiters.any (fun p => p.1 = cid) = false := by
          rcases hAny : s.rateLimiters.any (fun p => p.1 = cid) with _ | _
          · rfl
          · have := (any_key_iff_mem s.rateLimiters cid).mp hAny
            rw [← hkeys] at this
            exact absurd this hmemC
        constructor
        · show keysOf (mapSet s.clients cid _) = keysOf (mapSet s.rateLimiters cid _)
          rw [keysOf_mapSet_absent _ _ _ hanyC, keysOf_mapSet_absent _ _ _ hanyR, hkeys]
        · show (keysOf (mapSet s.clients cid _)).Nodup
          rw [keysOf_mapSet_absent _ _ _ hanyC]
          simp [List.nodup_append, hnd, hmemC]
      · have hstep : s.ValidateAccess now s.accessKey cid =
            (true,
              { s with
                clients := updateEntry s.clients cid
                  { c with lastSeen := now, messageCount := c.messageCount + 1 } }) := by
          simp [AuthService.ValidateAccess, hcid, hl]
        rw [hstep]
        constructor
        · show keysOf (updateEntry s.clients cid _) = keysOf s.rateLimiters
          rw [keysOf_updateEntry, hkeys]
        · show (keysOf (updateEntry s.clients cid _)).Nodup
          rw [keysOf_updateEntry]
          exact hnd
  · simpa [AuthService.ValidateAccess, hkey, AuthInv] using ⟨hkeys, hnd⟩

theorem checkRate_preserves_inv (s : AuthService) (cid : String)
    (h : AuthInv s) : AuthInv (s.CheckRateLimit cid).2 := by
  obtain ⟨hkeys, hnd⟩ := h
  rcases hr : s.rateLimiters.lookup cid with _ | lim
  · simpa [AuthService.CheckRateLimit, hr, AuthInv] using ⟨hkeys, hnd⟩
  · have hstep : (s.CheckRateLimit cid).2 =
        { s with rateLimiters := updateEntry s.rateLimiters cid lim.Allow.2 } := by
      simp [AuthService.CheckRateLimit, hr]
    rw [hstep]
    refine ⟨?_, hnd⟩
    show keysOf s.clients = keysOf (updateEntry s.rateLimiters cid lim.Allow.2)
    rw [keysOf_updateEntry]
    exact hkeys

theorem cleanup_preserves_inv (s : AuthService) (now maxAge : Nat)
    (h : AuthInv s) : AuthInv (s.cleanupStep now maxAge) := by
  obtain ⟨hkeys, hnd⟩ := h
  have hclients : (s.cleanupStep now maxAge).clients =
      s.clients.filter (fun p =>
        match s.clients.lookup p.1 with
        | some c => ! staleAt now maxAge c
        | none => true) := by
    show s.clients.filter _ = s.clients.filter _
    refine List.filter_congr (fun p hp => ?_)
    rw [lookup_of_nodup_mem s.clients hnd p hp]
  have hkeysC : keysOf (s.cleanupStep now maxAge).clients =
      (keysOf s.clients).filter (fun k =>
        match s.clients.lookup k with
        | some c => ! staleAt now maxAge c
        | none => true) := by
    rw [hclients]
    unfold keysOf
    rw [List.filter_map]
    rfl
  have hkeysR : keysOf (s.cleanupStep now maxAge).rateLimiters =
      (keysOf s.rateLimiters).filter (fun k =>
        match s.clients.lookup k with
        | some c => ! staleAt now maxAge c
        | none => true) := by
    show keysOf (s.rateLimiters.filter _) = _
    unfold keysOf
    rw [List.filter_map]
    rfl
  constructor
  · rw [hkeysC, hkeysR, hkeys]
  · rw [hkeysC]
    exact List.Nodup.filter _ hnd

theorem applyOp_preserves_inv (s : AuthService) (op : AuthOp)
    (h : AuthInv s) : AuthInv (s.applyOp op) := by
  cases op with
  | validate now key cid => exact validate_preserves_inv s now key cid h
  | checkRate cid => exact checkRate_preserves_inv s cid h
  | cleanup now maxAge => exact cleanup_preserves_inv s now maxAge h

/-- C10: starting from an empty controller, after any sequence of operations
(successful or failed `Authenticate`, `CheckRate`, liveness-sweep steps) the
set of caller identifiers holding rate-limiter state equals the set holding a
client record: a limiter is created only together with a new client record
and both entries are deleted together by the sweep. -/
theorem limiter_client_key_sets_agree (key : String) (ops : List AuthOp) :
    keysOf ((NewAuthService key).applyOps ops).clients =
      keysOf ((NewAuthService key).applyOps ops).rateLimiters := by
  suffices h : ∀ s : AuthService, AuthInv s → AuthInv (s.applyOps ops) by
    exact (h (NewAuthService key) ⟨rfl, List.nodup_nil⟩).1
  induction ops with
  | nil => exact fun s hs => hs
  | cons op rest ih =>
      intro s hs
      exact ih (s.applyOp op) (applyOp_preserves_inv s op hs)

theorem decDigits_of_lt {n : Nat} (h : n < 10) : decDigits n = [Nat.digitChar n] := by
  rw [decDigits]
  exact dif_pos h

theorem decDigits_of_ge {n : Nat} (h : ¬ n < 10) :
    decDigits n = decDigits (n / 10) ++ [Nat.digitChar (n % 10)] := by
  rw [decDigits]
  exact dif_neg h

theorem decDigits_ne_nil (n : Nat) : decDigits n ≠ [] := by
  by_cases h : n < 10
  · rw [decDigits_of_lt h]
    simp
  · rw [decDigits_of_ge h]
    simp

theorem digitChar_fin_inj : ∀ x y : Fin 10, Nat.digitChar x = Nat.digitChar y → x = y := by
  decide

theorem digitChar_fin_ne_underscore : ∀ x : Fin 10, Nat.digitChar x ≠ '_' := by
  decide

theorem digitChar_inj10 {a b : Nat} (ha : a < 10) (hb : b < 10)
    (h : Nat.digitChar a = Nat.digitChar b) : a = b := by
  have hfin := digitChar_fin_inj ⟨a, ha⟩ ⟨b, hb⟩ h
  exact congrArg Fin.val hfin

theorem mem_decDigits_ne_underscore : ∀ n : Nat, ∀ c ∈ decDigits n, c ≠ '_' := by
  intro n
  induction n using Nat.strong_induction_on with
  | _ n ih =>
      by_cases h : n < 10
      · rw [decDigits_of_lt h]
        intro c hc
        rw [List.mem_singleton] at hc
        subst hc
        exact digitChar_fin_ne_underscore ⟨n, h⟩
      · rw [decDigits_of_ge h]
        intro c hc
        rcases List.mem_append.mp hc with hc | hc
        · exact ih (n / 10) (Nat.div_lt_self (by omega) (by decide)) c hc
        · rw [List.mem_singleton] at hc
          subst hc
          exact digitChar_fin_ne_underscore ⟨n % 10, by omega⟩

theorem underscore_notin_decDigits (n : Nat) : '_' ∉ decDigits n :=
  fun hm => mem_decDigits_ne_underscore n '_' hm rfl

theorem toDigitsCore_eq_decDigits :
    ∀ (fuel n : Nat) (ds : List Char), n < fuel →
      Nat.toDigitsCore 10 fuel n ds = decDigits n ++ ds := by
  intro fuel
  induction fuel with
  | zero => intro n ds h; omega
  | succ f ih =>
      intro n ds h
      simp only [Nat.toDigitsCore]
      by_cases h10 : n < 10
      · rw [if_pos (Nat.div_eq_of_lt h10), decDigits_of_lt h10, Nat.mod_eq_of_lt h10]
        rfl
      · have hne : ¬ n / 10 = 0 := by
          intro h0
          omega
        rw [if_neg hne, ih (n / 10) _ (by omega)]
        rw [decDigits_of_ge h10]
        simp

theorem repr_eq_decDigits (n : Nat) : Nat.repr n = (decDigits n).asString := by
  show (Nat.toDigits 10 n).asString = _
  unfold Nat.toDigits
  rw [toDigitsCore_eq_decDigits (n + 1) n [] (Nat.lt_succ_self n), List.append_nil]

theorem decDigits_inj : ∀ m n : Nat, decDigits m = decDigits n → m = n := by
  intro m
  induction m using Nat.strong_induction_on with
  | _ m ih =>
      intro n h
      by_cases hm : m < 10
      · by_cases hn : n < 10
        · rw [decDigits_of_lt hm, decDigits_of_lt hn] at h
          exact digitChar_inj10 hm hn (List.cons.injEq .. |>.mp h).1
        · rw [decDigits_of_lt hm, decDigits_of_ge hn] at h
          have hlen := congrArg List.length h
          have hne := decDigits_ne_nil (n / 10)
          simp at hlen
          exact absurd hlen hne
      · by_cases hn : n < 10
        · rw [decDigits_of_ge hm, decDigits_of_lt hn] at h
          have hlen := congrArg List.length h
          have hne := decDigits_ne_nil (m / 10)
          simp at hlen
          exact absurd hlen hne
        · rw [decDigits_of_ge hm, decDigits_of_ge hn] at h
          have hparts := List.append_inj' h (by simp)
          have h1 : m / 10 = n / 10 :=
            ih (m / 10) (Nat.div_lt_self (by omega) (by decide)) (n / 10) hparts.1
          have h2 : m % 10 = n % 10 :=
            digitChar_inj10 (by omega) (by omega) (List.cons.injEq .. |>.mp hparts.2).1
          omega

theorem split_at_first_underscore :
    ∀ (L1 L2 R1 R2 : List Char), '_' ∉ L1 → '_' ∉ L2 →
      L1 ++ '_' :: R1 = L2 ++ '_' :: R2 → L1 = L2 ∧ R1 = R2 := by
  intro L1
  induction L1 with
  | nil =>
      intro L2 R1 R2 h1 h2 h
      cases L2 with
      | nil => simpa using h
      | cons b M =>
          simp only [List.nil_append, List.cons_append, List.cons.injEq] at h
          exact absurd (List.mem_cons.mpr (Or.inl h.1)) h2
  | cons a M ih =>
      intro L2 R1 R2 h1 h2 h
      cases L2 with
      | nil =>
          simp only [List.nil_append, List.cons_append, List.cons.injEq] at h
          exact absurd (List.mem_cons.mpr (Or.inl h.1.symm)) h1
      | cons b N =>
          simp only [List.cons_append, List.cons.injEq] at h
          have hM : '_' ∉ M := fun hm => h1 (List.mem_cons_of_mem a hm)
          have hN : '_' ∉ N := fun hn => h2 (List.mem_cons_of_mem b hn)
          have hrec := ih N R1 R2 hM hN h.2
          exact ⟨by rw [h.1, hrec.1], hrec.2⟩

theorem msgID_inj (t1 c1 t2 c2 : Nat)
    (h : "msg_" ++ Nat.repr t1 ++ "_" ++ Nat.repr c1 =
         "msg_" ++ Nat.repr t2 ++ "_" ++ Nat.repr c2) : t1 = t2 ∧ c1 = c2 := by
  have hdata := congrArg String.data h
  rw [repr_eq_decDigits, repr_eq_decDigits, repr_eq_decDigits, repr_eq_decDigits] at hdata
  simp only [String.data_append] at hdata
  have hAs : ∀ l : List Char, (l.asString).data = l := fun l => rfl
  rw [hAs, hAs, hAs, hAs] at hdata
  simp only [List.append_assoc, List.cons_append, List.nil_append, List.singleton_append,
    List.cons.injEq, true_and] at hdata
  have hsplit := split_at_first_underscore (decDigits t1) (decDigits t2) (decDigits c1)
    (decDigits c2) (underscore_notin_decDigits t1) (underscore_notin_decDigits t2) hdata
  exact ⟨decDigits_inj t1 t2 hsplit.1, decDigits_inj c1 c2 hsplit.2⟩

theorem genHistory_mem_shape :
    ∀ (ts : List Nat) (ctr : Nat), ctr + ts.length < 2 ^ 64 →
      ∀ s ∈ genHistory ts ctr,
        ∃ t c, s = "msg_" ++ Nat.repr t ++ "_" ++ Nat.repr c ∧
          ctr < c ∧ c ≤ ctr + ts.length := by
  intro ts
  induction ts with
  | nil => intro ctr h s hs; cases hs
  | cons t rest ih =>
      intro ctr h s hs
      have hlen : ctr + (rest.length + 1) < 2 ^ 64 := by simpa using h
      have hc1 : (ctr + 1) % 2 ^ 64 = ctr + 1 := Nat.mod_eq_of_lt (by omega)
      rcases List.mem_cons.mp hs with heq | hmem
      · refine ⟨t, ctr + 1, ?_, by omega, by simp⟩
        rw [heq]
        show "msg_" ++ Nat.repr t ++ "_" ++ Nat.repr ((ctr + 1) % 2 ^ 64) = _
        rw [hc1]
      · have hmem2 : s ∈ genHistory rest ((ctr + 1) % 2 ^ 64) := hmem
        rw [hc1] at hmem2
        obtain ⟨t2, c2, heq2, hlt2, hle2⟩ := ih (ctr + 1) (by omega) s hmem2
        exact ⟨t2, c2, heq2, by omega, by simp; omega⟩

/-- Counterexample to C4: with a non-decreasing clock (both calls at the same
nanosecond), the call right after the ninth produces `msg_0_10`, which is
lexically smaller than the ninth call's `msg_0_9` — the later identifier is
not lexically greater. -/
theorem generateID_lexical_counterexample :
    (GenerateID 0 8).1 = "msg_0_9" ∧
    (GenerateID 0 (GenerateID 0 8).2).1 = "msg_0_10" ∧
    ¬ ((GenerateID 0 8).1 < (GenerateID 0 (GenerateID 0 8).2).1) := by
  refine ⟨rfl, rfl, ?_⟩
  rw [show (GenerateID 0 8).1 = "msg_0_9" from rfl,
    show (GenerateID 0 (GenerateID 0 8).2).1 = "msg_0_10" from rfl]
  rw [String.lt_iff_toList_lt]
  decide

/-- C4 (amended): in any run of consecutive identifier-generation calls whose
length keeps the wrapping `uint64` counter from overflowing (fewer than
`2 ^ 64` calls), the produced identifiers are pairwise distinct — in
particular any two consecutive calls produce distinct identifiers, whatever
the clock does; lexical order, however, does not in general match arrival
order (see the counterexample: it fails when the counter's decimal
representation grows a digit). -/
theorem generateID_run_distinct (ts : List Nat) (ctr : Nat)
    (h : ctr + ts.length < 2 ^ 64) : (genHistory ts ctr).Nodup := by
  induction ts generalizing ctr with
  | nil => exact List.nodup_nil
  | cons t rest ih =>
      have hlen : ctr + (rest.length + 1) < 2 ^ 64 := by simpa using h
      have hc1 : (ctr + 1) % 2 ^ 64 = ctr + 1 := Nat.mod_eq_of_lt (by omega)
      show ((GenerateID t ctr).1 :: genHistory rest (GenerateID t ctr).2).Nodup
      rw [List.nodup_cons]
      constructor
      · intro hmem
        have hmem2 : (GenerateID t ctr).1 ∈ genHistory rest ((ctr + 1) % 2 ^ 64) := hmem
        rw [hc1] at hmem2
        obtain ⟨t2, c2, heq2, hlt2, hle2⟩ :=
          genHistory_mem_shape rest (ctr + 1) (by omega) _ hmem2
        have heq3 : "msg_" ++ Nat.repr t ++ "_" ++ Nat.repr ((ctr + 1) % 2 ^ 64) =
            "msg_" ++ Nat.repr t2 ++ "_" ++ Nat.repr c2 := heq2
        rw [hc1] at heq3
        have hinj := msgID_inj t (ctr + 1) t2 c2 heq3
        omega
      · have htail := ih ((ctr + 1) % 2 ^ 64) (by rw [hc1]; omega)
        exact htail

/-- Witness for the amended C4: a run of three calls (two at the same instant)
yields three distinct identifiers. -/
theorem generateID_run_distinct_witness : (genHistory [0, 0, 5] 0).Nodup := by
  have h := generateID_run_distinct [0, 0, 5] 0 (by norm_num)
  exact h

end TTC
